import Mathlib

/-!
Verification of the sandbox container runtime against its design document.

Each Rust function relevant to the claims is embedded as an executable Lean
definition translated directly from the source under `src/src/`.  Syscalls,
file writes and process spawns are modelled by explicit oracle inputs
(e.g. the exit outcome of a spawned helper), so the control flow around them
stays exactly as in the source.
-/

namespace Sandbox

/-! ## Capability masks (src/src/capability.rs)

`struct Cap` holds three masks, each `[u32; 2]` (the v3 capability interface
uses `_LINUX_CAPABILITY_U32S_3 = 2` words).  Words are modelled as `Nat`
values below `2^32`; the claims only exercise the bit logic. -/

def DATA_SIZE : Nat := 2

structure Cap where
  effective : List Nat
  permitted : List Nat
  inheritable : List Nat
deriving DecidableEq

/-- Linux capability numbers used by the sources (from the bindgen `ext` module). -/
def CAP_SETGID : Nat := 6

def CAP_SETUID : Nat := 7

def CAP_SYS_ADMIN : Nat := 21

/-- `Cap::effective` (src/src/capability.rs lines 110-115), verbatim:

```
let word = cap / 32;
let bit = cap % 32;
0 != (self.effective[word as usize] & bit)
```

Note the mask is `bit` itself, not `1 << bit`. -/
def Cap.testEffective (c : Cap) (cap : Nat) : Bool :=
  let word := cap / 32
  let bit := cap % 32
  (c.effective.getD word 0) &&& bit != 0

/-- The documented behaviour of `Cap::effective` ("Test a bit in the effective
mask"): test bit `cap % 32` of word `cap / 32`. -/
def Cap.testEffectiveSpec (c : Cap) (cap : Nat) : Bool :=
  Nat.testBit (c.effective.getD (cap / 32) 0) (cap % 32)

/-! ## IdMap (src/src/container.rs lines 222-308)

`IdMap.map` is a `BTreeMap<u32, (u32, u32)>`: an association list kept sorted
by strictly ascending key, keyed by the first argument of `add` (`start`)
with value `(end, count)`.  We store entries as flat triples
`(start, end, count)`. -/

structure IdMap where
  pid : Int
  isuid : Bool
  map : List (Nat × Nat × Nat)
deriving DecidableEq

/-- `BTreeMap::insert`: keep the list sorted by key, replace on equal key. -/
def btreeInsert (s e c : Nat) : List (Nat × Nat × Nat) → List (Nat × Nat × Nat)
  | [] => [(s, e, c)]
  | (k, v) :: rest =>
    if s < k then (s, e, c) :: (k, v) :: rest
    else if s = k then (s, e, c) :: rest
    else (k, v) :: btreeInsert s e c rest

/-- `IdMap::new_uid` -/
def IdMap.new_uid (pid : Int) : IdMap := { pid, isuid := true, map := [] }

/-- `IdMap::new_gid` -/
def IdMap.new_gid (pid : Int) : IdMap := { pid, isuid := false, map := [] }

/-- `IdMap::add(start, end, count)`: `self.map.insert(start, (end, count))` -/
def IdMap.add (m : IdMap) (s e c : Nat) : IdMap :=
  { m with map := btreeInsert s e c m.map }

/-- `IdMap::map_args`: iterate entries in key order, flatten
`vec![start, end, count]`, format each as decimal. -/
def IdMap.map_args (m : IdMap) : List String :=
  ((m.map.map (fun t => [t.1, t.2.1, t.2.2])).flatten).map (fun e => toString e)

/-- `IdMap::map_file`: lines `"{start} {end} {count}\n"` folded by `+=`. -/
def IdMap.map_file (m : IdMap) : String :=
  (m.map.map (fun t => s!"{t.1} {t.2.1} {t.2.2}\n")).foldl (fun a b => a ++ b) ""

/-- The error enum of src/src/err.rs (payloads dropped; only the variant
    matters to the claims). -/
inductive Err
  | File
  | OS
  | TooLong
  | NotIPv4
  | BadStr
  | UIDMap
  | ParseError
  | MissingMount
deriving DecidableEq

/-- Which branch `IdMap::write` took. -/
inductive WritePath
  | directUid
  | directGid
  | helper (cmd : String)
deriving DecidableEq

/-- Outcome of `Command::status()` for the spawned helper:
`exited code` makes `ExitStatus::code()` return `Some(code)`,
`signaled` makes it return `None`. -/
inductive HelperOutcome
  | exited (code : Int)
  | signaled
deriving DecidableEq

/-- `IdMap::write` (src/src/container.rs lines 277-307).  The direct
`util::write_file` call and the helper spawn itself are modelled as
succeeding (their I/O failures are outside the claims); the helper's exit
outcome is the oracle input.  The helper branch is verbatim
`.status()?.code().ok_or(err::Error::UIDMap)?` followed by `Ok(())`. -/
def IdMap.write (m : IdMap) (caps : Cap) (helper : HelperOutcome) :
    WritePath × Except Err Unit :=
  if m.isuid && caps.testEffective CAP_SETUID then
    (.directUid, .ok ())
  else if !m.isuid && caps.testEffective CAP_SETGID then
    (.directGid, .ok ())
  else
    let cmd := if m.isuid then "newuidmap" else "newgidmap"
    match (match helper with
           | .exited c => some c
           | .signaled => none) with
    | none => (.helper cmd, .error .UIDMap)
    | some _ => (.helper cmd, .ok ())

/-! ### Concrete capability snapshots used by the claim theorems. -/

/-- Effective mask with exactly bit 7 (`CAP_SETUID`) set in word 0. -/
def capSetuidOnly : Cap :=
  { effective := [0x80, 0], permitted := [0x80, 0], inheritable := [0, 0] }

/-- All-zero capability snapshot. -/
def capNone : Cap :=
  { effective := [0, 0], permitted := [0, 0], inheritable := [0, 0] }

/-- Example uid mapping. -/
def uidMapEx : IdMap := (IdMap.new_uid 10).add 1000 1000 1

/-- Example gid mapping. -/
def gidMapEx : IdMap := (IdMap.new_gid 10).add 1000 1000 1

/-- C1: `Cap::effective(c)` is claimed to test bit `c % 32` of word `c / 32`
of the effective mask, and `IdMap::write` is claimed to take the direct
`/proc` path exactly when the `CAP_SETUID` bit is effective.  The code
instead computes `effective[word] & bit` with the bit *index* as the mask:
with effective word 0 = `0x80` (bit 7 = `CAP_SETUID` set), `0x80 & 7 = 0`,
so `Cap::effective(CAP_SETUID)` returns `false` although the bit is set, and
`IdMap::write` takes the external-helper path. -/
theorem c1_cap_effective_bit_bug :
    Cap.testEffective capSetuidOnly CAP_SETUID = false ∧
    Cap.testEffectiveSpec capSetuidOnly CAP_SETUID = true ∧
    (IdMap.write uidMapEx capSetuidOnly (.exited 0)).1 = .helper "newuidmap" := by
  refine ⟨by decide, by decide, by decide⟩

/-- C2: a non-zero exit status of the external `newgidmap` helper is claimed
to surface as the `UIDMap` error.  The code runs
`.status()?.code().ok_or(err::Error::UIDMap)?`, which produces `UIDMap` only
when `code()` is `None` (helper killed by a signal); a helper that exits
with status 1 yields `Ok(())`. -/
theorem c2_helper_nonzero_exit_returns_ok :
    IdMap.write gidMapEx capNone (.exited 1) = (.helper "newgidmap", .ok ()) ∧
    IdMap.write gidMapEx capNone (.exited 0) = (.helper "newgidmap", .ok ()) ∧
    IdMap.write gidMapEx capNone .signaled = (.helper "newgidmap", .error .UIDMap) := by
  refine ⟨rfl, rfl, rfl⟩

/-! ### C4: serialization order of `map_file` / `map_args` -/

/-- The serialization the claim asserts for `map_file`: field order inner
(`end`), then outer (`start`), then count. -/
def mapFileInnerFirst (entries : List (Nat × Nat × Nat)) : String :=
  (entries.map (fun t => s!"{t.2.1} {t.1} {t.2.2}\n")).foldl (fun a b => a ++ b) ""

/-- The in-repo test mapping: `new_uid(0).add(0, 1, 2).add(15, 16, 2)`. -/
def idMapTestEx : IdMap := ((IdMap.new_uid 0).add 0 1 2).add 15 16 2

/-- C4 counterexample: for the entries `add(0,1,2)`, `add(15,16,2)` —
`(outer, inner, count) = (0,1,2), (15,16,2)` per `add`'s documentation —
`map_file` produces `"0 1 2\n15 16 2\n"` (outer first, exactly as the
in-repo unit test asserts), not the claimed inner-first
`"1 0 2\n16 15 2\n"`. -/
theorem c4_map_file_not_inner_first :
    IdMap.map_file idMapTestEx = "0 1 2\n15 16 2\n" ∧
    mapFileInnerFirst idMapTestEx.map = "1 0 2\n16 15 2\n" ∧
    IdMap.map_file idMapTestEx ≠ mapFileInnerFirst idMapTestEx.map := by
  refine ⟨by decide, by decide, by decide⟩

/-- Build an `IdMap` by a sequence of `add` calls. -/
def IdMap.addAll (m : IdMap) (l : List (Nat × Nat × Nat)) : IdMap :=
  l.foldl (fun m t => m.add t.1 t.2.1 t.2.2) m

/-- Keys of `btreeInsert` results stay strictly sorted. -/
theorem btreeInsert_sorted (s e c : Nat) (l : List (Nat × Nat × Nat))
    (h : l.Pairwise (fun a b => a.1 < b.1)) :
    (btreeInsert s e c l).Pairwise (fun a b => a.1 < b.1) := by
  induction l with
  | nil => simp [btreeInsert]
  | cons hd tl ih =>
    obtain ⟨k, v⟩ := hd
    rw [List.pairwise_cons] at h
    obtain ⟨hk, htl⟩ := h
    by_cases h1 : s < k
    · simp only [btreeInsert, if_pos h1]
      refine List.pairwise_cons.mpr ⟨?_, List.pairwise_cons.mpr ⟨hk, htl⟩⟩
      intro a ha
      rcases List.mem_cons.mp ha with rfl | ha
      · exact h1
      · exact lt_trans h1 (hk a ha)
    · by_cases h2 : s = k
      · simp only [btreeInsert, if_neg h1, if_pos h2]
        refine List.pairwise_cons.mpr ⟨?_, htl⟩
        intro a ha
        exact h2 ▸ hk a ha
      · simp only [btreeInsert, if_neg h1, if_neg h2]
        refine List.pairwise_cons.mpr ⟨?_, ih htl⟩
        intro a ha
        rcases btreeInsert_mem_keys s e c tl a ha with rfl | hmem
        · omega
        · exact hk a hmem
where
  /-- membership in `btreeInsert`: the inserted triple or an original entry. -/
  btreeInsert_mem_keys (s e c : Nat) :
      (l : List (Nat × Nat × Nat)) → (a : Nat × Nat × Nat) →
      a ∈ btreeInsert s e c l → a = (s, e, c) ∨ a ∈ l := by
    intro l
    induction l with
    | nil => intro a ha; simp [btreeInsert] at ha; exact Or.inl ha
    | cons hd tl ih =>
      obtain ⟨k, v⟩ := hd
      intro a ha
      by_cases h1 : s < k
      · simp only [btreeInsert, if_pos h1] at ha
        rcases List.mem_cons.mp ha with rfl | ha
        · exact Or.inl rfl
        · exact Or.inr ha
      · by_cases h2 : s = k
        · simp only [btreeInsert, if_neg h1, if_pos h2] at ha
          rcases List.mem_cons.mp ha with rfl | ha
          · exact Or.inl rfl
          · exact Or.inr (List.mem_cons_of_mem _ ha)
        · simp only [btreeInsert, if_neg h1, if_neg h2] at ha
          rcases List.mem_cons.mp ha with rfl | ha
          · exact Or.inr (List.mem_cons_self _ _)
          · rcases ih a ha with h | h
            · exact Or.inl h
            · exact Or.inr (List.mem_cons_of_mem _ h)

/-- `addAll` starting from an empty map yields strictly ascending keys. -/
theorem addAll_sorted (l : List (Nat × Nat × Nat)) (pid : Int) :
    ((IdMap.new_uid pid).addAll l).map.Pairwise (fun a b => a.1 < b.1) := by
  suffices h : ∀ (m : IdMap), m.map.Pairwise (fun a b => a.1 < b.1) →
      (m.addAll l).map.Pairwise (fun a b => a.1 < b.1) by
    exact h _ (by simp [IdMap.new_uid])
  induction l with
  | nil => intro m hm; simpa [IdMap.addAll] using hm
  | cons hd tl ih =>
    intro m hm
    simp only [IdMap.addAll, List.foldl_cons] at *
    exact ih (m.add hd.1 hd.2.1 hd.2.2) (btreeInsert_sorted _ _ _ _ hm)

/-- C4 amended: `map_file` serializes one line per entry in the field order
outer (`start`, the first `add` argument), then inner (`end`), then count;
entries are kept strictly sorted by ascending outer start; and `map_args`
flattens the same entries in the same outer, inner, count order.  Checked
against the in-repo unit-test values. -/
theorem c4_serialization_order :
    (∀ (pid : Int) (l : List (Nat × Nat × Nat)),
      ((IdMap.new_uid pid).addAll l).map.Pairwise (fun a b => a.1 < b.1)) ∧
    (∀ m : IdMap,
      IdMap.map_file m =
        (m.map.map (fun t =>
          toString t.1 ++ " " ++ toString t.2.1 ++ " " ++ toString t.2.2 ++ "\n")).foldl
            (fun a b => a ++ b) "" ∧
      IdMap.map_args m =
        m.map.flatMap (fun t => [toString t.1, toString t.2.1, toString t.2.2])) ∧
    IdMap.map_file idMapTestEx = "0 1 2\n15 16 2\n" ∧
    IdMap.map_args idMapTestEx = ["0", "1", "2", "15", "16", "2"] := by
  refine ⟨fun pid l => addAll_sorted l pid, fun m => ⟨?_, ?_⟩, by decide, by decide⟩
  · rfl
  · simp only [IdMap.map_args, List.flatMap_def, List.map_flatten, List.map_map]
    rfl

/-! ## Managed process handle (src/src/proc.rs)

`struct Proc { pid, done, code }`.  `park` installs handlers for
`SIGTERM/SIGINT/SIGQUIT/SIGCHLD` and loops: poll `waitpid(pid, WNOHANG)`,
then block on the next delivered signal.  The kernel side is modelled by two
oracle streams: the successive `waitpid` results and the successive delivered
signals.  Each loop iteration consumes one `waitpid` result, and (when Busy)
one signal.  Observable side effects are recorded as a `ParkAction` trace. -/

def SIGINT : Int := 2

def SIGQUIT : Int := 3

def SIGKILL : Int := 9

def SIGTERM : Int := 15

def SIGCHLD : Int := 17

structure Proc where
  pid : Int
  done : Bool
  code : Int
deriving DecidableEq

/-- `trywaitpid` result (src/src/proc.rs lines 127-145). -/
inductive TryWait
  | Busy
  | Done (child : Int) (sts : Int)
deriving DecidableEq

inductive ParkAction
  | installHandlers
  | waitpidCall
  | sendSignal (pid : Int) (sig : Int)
deriving DecidableEq

/-- The `loop` of `Proc::park` (src/src/proc.rs lines 66-95).  `cnt` is the
escalation counter.  Returns the reaped `(Proc, status)` (or `none` when the
oracle streams run out, i.e. the child was never observed to exit within the
modelled window) together with the trace of `waitpid` polls and `kill`
syscalls issued via `self.signal`. -/
def parkLoop (p : Proc) (cnt : Nat) :
    List TryWait → List Int → Option (Proc × Int) × List ParkAction
  | [], _ => (none, [])
  | w :: ws, sigs =>
    match w with
    | .Done _ sts => (some ({ p with done := true, code := sts }, sts), [.waitpidCall])
    | .Busy =>
      match sigs with
      | [] => (none, [.waitpidCall])
      | s :: srest =>
        if s = SIGCHLD then
          let r := parkLoop p cnt ws srest
          (r.1, .waitpidCall :: r.2)
        else
          let num := if cnt < 2 then s else SIGKILL
          let r := parkLoop p (cnt + 1) ws srest
          (r.1, .waitpidCall :: .sendSignal p.pid num :: r.2)

/-- `Proc::park` (src/src/proc.rs lines 51-96): early return of the cached
code when `done`, otherwise install the signal handlers and run the loop
with `cnt = 0`. -/
def Proc.park (p : Proc) (ws : List TryWait) (sigs : List Int) :
    Option (Proc × Int) × List ParkAction :=
  if p.done then (some (p, p.code), [])
  else
    let r := parkLoop p 0 ws sigs
    (r.1, .installHandlers :: r.2)

/-- The signals sent by a trace. -/
def killsOf : List ParkAction → List Int
  | [] => []
  | .sendSignal _ s :: rest => s :: killsOf rest
  | _ :: rest => killsOf rest

theorem killsOf_waitpid (tr : List ParkAction) :
    killsOf (.waitpidCall :: tr) = killsOf tr := rfl

theorem killsOf_send (pid s : Int) (tr : List ParkAction) :
    killsOf (.sendSignal pid s :: tr) = s :: killsOf tr := rfl

/-- On an always-Busy `waitpid` oracle the loop never returns, and the
signals it sends are the non-`SIGCHLD` inputs with the `cnt`-th and later
ones (counting from 2) replaced by `SIGKILL`. -/
theorem parkLoop_busy_kills (sigs : List Int) (p : Proc) (cnt : Nat) :
    (parkLoop p cnt (List.replicate sigs.length .Busy) sigs).1 = none ∧
    killsOf (parkLoop p cnt (List.replicate sigs.length .Busy) sigs).2 =
      ((sigs.filter (fun s => s ≠ SIGCHLD)).take (2 - cnt)) ++
      ((sigs.filter (fun s => s ≠ SIGCHLD)).drop (2 - cnt)).map (fun _ => SIGKILL) := by
  induction sigs generalizing cnt with
  | nil => simp [parkLoop, killsOf]
  | cons s rest ih =>
    simp only [List.length_cons, List.replicate_succ, parkLoop]
    by_cases hs : s = SIGCHLD
    · simp only [if_pos hs, killsOf_waitpid]
      have h := ih cnt
      refine ⟨h.1, ?_⟩
      rw [h.2]
      simp [List.filter_cons, hs]
    · simp only [if_neg hs, killsOf_waitpid, killsOf_send]
      have h := ih (cnt + 1)
      refine ⟨h.1, ?_⟩
      rw [h.2]
      have hfil : (s :: rest).filter (fun x => decide (x ≠ SIGCHLD)) =
          s :: rest.filter (fun x => decide (x ≠ SIGCHLD)) := by
        simp [List.filter_cons, hs]
      rw [hfil]
      by_cases hc : cnt < 2
      · have h2 : 2 - cnt = (2 - (cnt + 1)) + 1 := by omega
        simp only [if_pos hc, h2, List.take_succ_cons, List.drop_succ_cons,
          List.cons_append]
      · have h2 : 2 - cnt = 0 := by omega
        have h3 : 2 - (cnt + 1) = 0 := by omega
        simp only [if_neg hc, h2, h3, List.take_zero, List.drop_zero,
          List.nil_append, List.map_cons]

/-- C5: in `Proc::park` over a still-running child (the `waitpid` oracle
always reports Busy), each delivered non-`SIGCHLD` signal is forwarded to
the child unchanged for the first two such occurrences and as `SIGKILL` from
the third onward, while `SIGCHLD` deliveries only re-poll `waitpid` and do
not advance the escalation count (they are transparent to the filter). -/
theorem c5_park_signal_escalation (pid code : Int) (sigs : List Int) :
    (Proc.park { pid, done := false, code }
        (List.replicate sigs.length .Busy) sigs).1 = none ∧
    killsOf (Proc.park { pid, done := false, code }
        (List.replicate sigs.length .Busy) sigs).2 =
      ((sigs.filter (fun s => s ≠ SIGCHLD)).take 2) ++
      ((sigs.filter (fun s => s ≠ SIGCHLD)).drop 2).map (fun _ => SIGKILL) := by
  have h := parkLoop_busy_kills sigs { pid, done := false, code } 0
  simp only [Proc.park, if_neg (by simp : ¬ (false = true))]
  exact ⟨h.1, h.2⟩

/-- A successful `parkLoop` return carries a `Proc` with `done` set and the
returned status cached. -/
theorem parkLoop_done (p : Proc) (cnt : Nat) (ws : List TryWait)
    (sigs : List Int) (q : Proc) (n : Int) (tr : List ParkAction)
    (h : parkLoop p cnt ws sigs = (some (q, n), tr)) :
    q.done = true ∧ q.code = n := by
  induction ws generalizing p cnt sigs tr with
  | nil => simp [parkLoop] at h
  | cons w ws ih =>
    cases w with
    | Done child sts =>
      simp only [parkLoop] at h
      have h1 : ({ p with done := true, code := sts }, (sts : Int)) = (q, n) :=
        Option.some.inj (congrArg Prod.fst h)
      have hq : q = { p with done := true, code := sts } := (congrArg Prod.fst h1).symm
      have hn : n = sts := (congrArg Prod.snd h1).symm
      subst hq
      subst hn
      exact ⟨rfl, rfl⟩
    | Busy =>
      cases sigs with
      | nil => simp [parkLoop] at h
      | cons s srest =>
        simp only [parkLoop] at h
        by_cases hs : s = SIGCHLD
        · rw [if_pos hs] at h
          have h2 : (parkLoop p cnt ws srest).1 = some (q, n) := congrArg Prod.fst h
          refine ih p cnt srest (parkLoop p cnt ws srest).2 ?_
          rw [← h2]
        · rw [if_neg hs] at h
          have h2 : (parkLoop p (cnt + 1) ws srest).1 = some (q, n) := congrArg Prod.fst h
          refine ih p (cnt + 1) srest (parkLoop p (cnt + 1) ws srest).2 ?_
          rw [← h2]

/-- C8: once a `park` run has returned exit code `n` (reaping the child and
setting `done`), every later `park` on the resulting handle returns the same
`n` immediately with an empty action trace: no handler installation, no
`waitpid`, no signal. -/
theorem c8_park_idempotent (p : Proc) (ws : List TryWait) (sigs : List Int)
    (q : Proc) (n : Int) (tr : List ParkAction)
    (h : Proc.park p ws sigs = (some (q, n), tr))
    (ws2 : List TryWait) (sigs2 : List Int) :
    Proc.park q ws2 sigs2 = (some (q, n), []) := by
  have hq : q.done = true ∧ q.code = n := by
    by_cases hd : p.done
    · simp only [Proc.park, if_pos hd] at h
      have h1 : (p, p.code) = (q, n) := Option.some.inj (congrArg Prod.fst h)
      have hqp : q = p := (congrArg Prod.fst h1).symm
      have hn : n = p.code := (congrArg Prod.snd h1).symm
      subst hqp
      subst hn
      exact ⟨hd, rfl⟩
    · simp only [Proc.park, if_neg hd] at h
      have h2 : (parkLoop p 0 ws sigs).1 = some (q, n) := congrArg Prod.fst h
      refine parkLoop_done p 0 ws sigs q n (parkLoop p 0 ws sigs).2 ?_
      rw [← h2]
  simp [Proc.park, hq.1, hq.2]

/-- Witness for C8: a first `park` reaps the child with status 7; a second
`park` on the returned handle is a pure cache read. -/
theorem c8_park_idempotent_witness :
    Proc.park { pid := 5, done := true, code := 7 } [.Busy] [SIGINT] =
      (some ({ pid := 5, done := true, code := 7 }, 7), []) :=
  c8_park_idempotent { pid := 5, done := false, code := -1 } [.Done 5 7] []
    { pid := 5, done := true, code := 7 } 7 [.installHandlers, .waitpidCall]
    rfl [.Busy] [SIGINT]

/-! ### C10: signal / kill / Drop on a reaped handle -/

/-- `Proc::signal` (src/src/proc.rs lines 31-42).  The `libc::kill` syscall
outcome is the oracle `killOk`; the trace records each `(pid, sig)` kill
syscall actually issued. -/
def Proc.signal (p : Proc) (sig : Int) (killOk : Bool) :
    Except Unit Unit × List (Int × Int) :=
  if !p.done then
    if killOk then (.ok (), [(p.pid, sig)])
    else (.error (), [(p.pid, sig)])
  else (.ok (), [])

/-- `Proc::kill` (src/src/proc.rs lines 44-47): `self.signal(SIGKILL)`. -/
def Proc.killSelf (p : Proc) (killOk : Bool) : Except Unit Unit × List (Int × Int) :=
  p.signal SIGKILL killOk

/-- `impl Drop for Proc` (src/src/proc.rs lines 99-105): calls `self.kill()`
and only logs a warning on error.  Observable effect: the kill syscalls. -/
def Proc.dropHandle (p : Proc) (killOk : Bool) : List (Int × Int) :=
  (p.killSelf killOk).2

/-- C10: on a reaped handle (`done` set) `signal` and `kill` return `Ok`
without issuing any kill syscall and `Drop` sends nothing; on a
still-running handle `Drop` sends exactly one `SIGKILL` to the child. -/
theorem c10_no_signal_after_done (p : Proc) (sig : Int) (killOk : Bool) :
    (p.done = true →
      p.signal sig killOk = (.ok (), []) ∧
      p.killSelf killOk = (.ok (), []) ∧
      p.dropHandle killOk = []) ∧
    (p.done = false → p.dropHandle killOk = [(p.pid, SIGKILL)]) := by
  constructor
  · intro hd
    simp [Proc.signal, Proc.killSelf, Proc.dropHandle, hd]
  · intro hd
    cases killOk <;> simp [Proc.signal, Proc.killSelf, Proc.dropHandle, hd]

/-- Witness for C10 at concrete handles: a reaped handle (done, code 3) and
a running one. -/
theorem c10_no_signal_after_done_witness :
    (Proc.signal { pid := 8, done := true, code := 3 } SIGTERM true = (.ok (), []) ∧
      Proc.killSelf { pid := 8, done := true, code := 3 } true = (.ok (), []) ∧
      Proc.dropHandle { pid := 8, done := true, code := 3 } true = []) ∧
    Proc.dropHandle { pid := 9, done := false, code := -1 } true = [(9, SIGKILL)] :=
  ⟨(c10_no_signal_after_done { pid := 8, done := true, code := 3 } SIGTERM true).1 rfl,
   (c10_no_signal_after_done { pid := 9, done := false, code := -1 } SIGTERM true).2 rfl⟩

/-! ## Parent side of the handshake (src/src/container.rs lines 65-97)

`handle_parent` reads one byte from the socket to the child.  The read
outcome is the oracle input; the hooks, the reply write and the credential
drops are modelled as succeeding (their failures are outside claim C7).
Observable steps are recorded in order. -/

inductive ReadOutcome
  | ok (b : Nat)
  | errEof
  | errOther
deriving DecidableEq

inductive ParentAction
  | setIdMap
  | writeReply
  | dropPriv
  | park
deriving DecidableEq

/-- `handle_parent`: on `UnexpectedEof` the byte is replaced by `'!'` and
the function continues; any other read error propagates via `?`.  When the
byte is `'.'` (46) the `set_id_map` hook runs and the one-byte reply is
written; otherwise both are skipped.  Either way the function then drops
`euid/egid`, clears capabilities (`dropPriv`) and parks on the child. -/
def handle_parent (r : ReadOutcome) : Except Unit (List ParentAction) :=
  match (match r with
         | .ok b => some b
         | .errEof => some 33
         | .errOther => none) with
  | none => .error ()
  | some m =>
    if m = 46 then .ok [.setIdMap, .writeReply, .dropPriv, .park]
    else .ok [.dropPriv, .park]

/-- C7: after forking the child, an `UnexpectedEof` on the handshake read or
a byte other than `'.'` makes the parent skip `set_id_map` and the reply
write but still drop privileges and park; `set_id_map` runs exactly on the
byte `'.'` (after which the reply is written), and it is never reached when
the read fails with another error. -/
theorem c7_parent_handshake (b : Nat) (hb : b ≠ 46) :
    handle_parent .errEof = .ok [.dropPriv, .park] ∧
    handle_parent (.ok b) = .ok [.dropPriv, .park] ∧
    handle_parent (.ok 46) = .ok [.setIdMap, .writeReply, .dropPriv, .park] ∧
    handle_parent .errOther = .error () ∧
    (∀ (r : ReadOutcome) (l : List ParentAction),
      handle_parent r = .ok l → (ParentAction.setIdMap ∈ l ↔ r = .ok 46)) := by
  refine ⟨rfl, by simp [handle_parent, hb], rfl, rfl, ?_⟩
  intro r l h
  cases r with
  | ok c =>
    by_cases hc : c = 46
    · subst hc
      simp only [handle_parent] at h
      cases h
      simp
    · simp only [handle_parent, if_neg hc] at h
      cases h
      simp [hc]
  | errEof =>
    simp only [handle_parent] at h
    cases h
    simp
  | errOther => simp [handle_parent] at h

/-- Witness for C7 at the byte `'X'` (88), the child's error message. -/
theorem c7_parent_handshake_witness :
    handle_parent .errEof = .ok [.dropPriv, .park] ∧
    handle_parent (.ok 88) = .ok [.dropPriv, .park] ∧
    handle_parent (.ok 46) = .ok [.setIdMap, .writeReply, .dropPriv, .park] ∧
    handle_parent .errOther = .error () ∧
    (∀ (r : ReadOutcome) (l : List ParentAction),
      handle_parent r = .ok l → (ParentAction.setIdMap ∈ l ↔ r = .ok 46)) :=
  c7_parent_handshake 88 (by decide)

/-! ## Interface name bound check (src/src/net.rs lines 34-50)

`IfReq::from_name` copies the name bytes into the `IFNAMSIZ`-byte
`ifr_name` field of a zero-initialized `ifreq` and writes a terminating NUL
after them.  The buffer is modelled as the 16-byte array contents. -/

def IFNAMSIZ : Nat := 16

/-- `IfReq::from_name`: reject names of byte length `>= IFNAMSIZ` with
`TooLong`; otherwise the buffer holds the name, the NUL written at index
`len`, and the remaining default zeroes. -/
def IfReq.from_name (name : List Nat) : Except Err (List Nat) :=
  if name.length ≥ IFNAMSIZ then .error .TooLong
  else .ok (name ++ [0] ++ List.replicate (IFNAMSIZ - name.length - 1) 0)

/-- C9: names of byte length `>= 16` are rejected with `TooLong`; any
shorter name (up to 15 bytes) is accepted and the copy plus the terminating
NUL stays within the 16-byte buffer: the result has length exactly
`IFNAMSIZ`, starts with the name, and has the NUL at index `len < 16`. -/
theorem c9_ifname_bound (name : List Nat) :
    (name.length ≥ IFNAMSIZ → IfReq.from_name name = .error .TooLong) ∧
    (name.length < IFNAMSIZ →
      IfReq.from_name name =
        .ok (name ++ [0] ++ List.replicate (IFNAMSIZ - name.length - 1) 0) ∧
      ∀ buf, IfReq.from_name name = .ok buf →
        buf.length = IFNAMSIZ ∧ buf.take name.length = name ∧
        buf.getD name.length 1 = 0) := by
  constructor
  · intro h
    simp [IfReq.from_name, h]
  · intro h
    have hn : ¬ name.length ≥ IFNAMSIZ := by omega
    refine ⟨by simp [IfReq.from_name, hn], ?_⟩
    intro buf hbuf
    simp only [IfReq.from_name, if_neg hn] at hbuf
    cases hbuf
    refine ⟨?_, ?_, ?_⟩
    · simp only [List.length_append, List.length_replicate, List.length_cons,
        List.length_nil]
      simp only [IFNAMSIZ] at h ⊢
      omega
    · rw [List.append_assoc, List.take_append_of_le_length (le_refl _),
        List.take_length]
    · rw [List.getD_eq_getElem?_getD, List.append_assoc]
      rw [List.getElem?_append_right (le_refl _)]
      simp

/-- Witness for C9: the 2-byte name `"hi"` is accepted with the NUL at
index 2 of the 16-byte buffer; a 16-byte name is rejected. -/
theorem c9_ifname_bound_witness :
    (IfReq.from_name (List.replicate 16 120) = .error .TooLong) ∧
    (IfReq.from_name [104, 105] = .ok ([104, 105] ++ [0] ++ List.replicate 13 0)) :=
  ⟨(c9_ifname_bound (List.replicate 16 120)).1 (by decide),
   ((c9_ifname_bound [104, 105]).2 (by decide)).1⟩

/-! ## Duplicate removal in the isolate mount plan (src/src/bin/isolate.rs lines 309-321)

The plan is a list of `(MountType, path)` pairs.  The orchestrator folds it
keeping a `mseen` set and an output vector: a recurring path first filters
all earlier entries for that path out of the output, then the entry is
appended. -/

inductive MountType
  | ReadOnly
  | Writable
  | Tmp
deriving DecidableEq

/-- The fold body of the duplicate-removal block, with `mseen` as a list. -/
def dedupGo (seen : List String) (acc : List (MountType × String)) :
    List (MountType × String) → List (MountType × String)
  | [] => acc
  | (mtype, dir) :: rest =>
    let acc1 := if dir ∈ seen then acc.filter (fun e => e.2 != dir) else acc
    dedupGo (dir :: seen) (acc1 ++ [(mtype, dir)]) rest

/-- `main`'s duplicate removal: "remove duplicates in favor of last". -/
def dedupMounts (mounts : List (MountType × String)) : List (MountType × String) :=
  dedupGo [] [] mounts

/-- The claimed behaviour: keep exactly the entries whose path does not
recur later, in their original order. -/
def lastWins : List (MountType × String) → List (MountType × String)
  | [] => []
  | e :: rest =>
    if rest.any (fun f => f.2 == e.2) then lastWins rest else e :: lastWins rest

/-- Unconditional variant of the fold body: the `mseen` test only guards a
filter that is a no-op when the path was never seen. -/
def dedupGoU (acc : List (MountType × String)) :
    List (MountType × String) → List (MountType × String)
  | [] => acc
  | (mtype, dir) :: rest =>
    dedupGoU (acc.filter (fun e => e.2 != dir) ++ [(mtype, dir)]) rest

theorem dedupGo_eq_dedupGoU (l : List (MountType × String)) (seen : List String)
    (acc : List (MountType × String)) (hinv : ∀ e ∈ acc, e.2 ∈ seen) :
    dedupGo seen acc l = dedupGoU acc l := by
  induction l generalizing seen acc with
  | nil => rfl
  | cons hd rest ih =>
    obtain ⟨mtype, dir⟩ := hd
    simp only [dedupGo, dedupGoU]
    by_cases hseen : dir ∈ seen
    · rw [if_pos hseen]
      refine ih _ _ ?_
      intro e he
      rcases List.mem_append.mp he with he | he
      · exact List.mem_cons_of_mem _ (hinv e (List.mem_of_mem_filter he))
      · simp only [List.mem_singleton] at he
        subst he
        exact List.mem_cons_self _ _
    · rw [if_neg hseen]
      have hfil : acc.filter (fun e => e.2 != dir) = acc := by
        refine List.filter_eq_self.mpr ?_
        intro e he
        have : e.2 ∈ seen := hinv e he
        simp only [bne_iff_ne, ne_eq]
        intro hc
        exact hseen (hc ▸ this)
      rw [hfil]
      refine ih _ _ ?_
      intro e he
      rcases List.mem_append.mp he with he | he
      · exact List.mem_cons_of_mem _ (hinv e he)
      · simp only [List.mem_singleton] at he
        subst he
        exact List.mem_cons_self _ _

theorem dedupGoU_eq_lastWins (l : List (MountType × String))
    (acc : List (MountType × String)) :
    dedupGoU acc l = acc.filter (fun e => !l.any (fun f => f.2 == e.2)) ++ lastWins l := by
  induction l generalizing acc with
  | nil => simp [dedupGoU, lastWins]
  | cons hd rest ih =>
    obtain ⟨mtype, dir⟩ := hd
    simp only [dedupGoU, lastWins]
    rw [ih]
    rw [List.filter_append, List.filter_filter]
    by_cases hrec : rest.any (fun f => f.2 == dir)
    · rw [if_pos hrec]
      have h1 : List.filter (fun e => !List.any rest fun f => f.2 == e.2)
          [(mtype, dir)] = [] := by
        simp [List.filter, hrec]
      rw [h1, List.append_nil]
      congr 1
      apply List.filter_congr
      intro e he
      by_cases hde : e.2 = dir
      · simp [hde, List.any_cons]
      · have hde2 : ¬ dir = e.2 := fun hc => hde hc.symm
        have hb1 : (e.2 != dir) = true := by simp [hde]
        have hb2 : (dir == e.2) = false := by simp [hde2]
        simp [hde, hde2, List.any_cons, hb1, hb2, Bool.and_comm]
    · rw [if_neg hrec]
      have h1 : List.filter (fun e => !List.any rest fun f => f.2 == e.2)
          [(mtype, dir)] = [(mtype, dir)] := by
        simp only [List.filter, hrec]
        rfl
      rw [h1, List.append_assoc]
      congr 1
      apply List.filter_congr
      intro e he
      by_cases hde : e.2 = dir
      · simp [hde, List.any_cons]
      · have hde2 : ¬ dir = e.2 := fun hc => hde hc.symm
        have hb1 : (e.2 != dir) = true := by simp [hde]
        have hb2 : (dir == e.2) = false := by simp [hde2]
        simp [hde, hde2, List.any_cons, hb1, hb2, Bool.and_comm]

/-- C6: the duplicate-removal step removes every entry whose path recurs
later, keeps the last entry for each path, and preserves the original
relative order of the survivors (it equals the later-recurrence filter);
on the plan `[(W,/a), (W,/b), (R,/a)]` it yields `[(W,/b), (R,/a)]`. -/
theorem c6_plan_duplicate_wins :
    dedupMounts [(.Writable, "/a"), (.Writable, "/b"), (.ReadOnly, "/a")] =
      [(.Writable, "/b"), (.ReadOnly, "/a")] ∧
    ∀ l : List (MountType × String), dedupMounts l = lastWins l := by
  have hgen : ∀ l : List (MountType × String), dedupMounts l = lastWins l := by
    intro l
    rw [dedupMounts, dedupGo_eq_dedupGoU l [] [] (by intro e he; cases he),
      dedupGoU_eq_lastWins, List.filter_nil, List.nil_append]
  exact ⟨by rw [hgen]; rfl, hgen⟩

/-! ## mountinfo parsing (src/src/fs.rs)

`Mounts::parse_line` consumes whitespace-separated tokens of one
`/proc/<pid>/mountinfo` line.  After the six fixed leading fields it runs

```
loop {
    if let Some(next) = liter.peek() {
        if next == &"-" { break; }
        liter.next().unwrap();
    }
}
```

When the iterator is exhausted before a `"-"` token is seen, `peek()`
returns `None` and the loop body does nothing, forever: the function does
not terminate.  The embedding makes that branch explicit as the
`LineResult.diverge` outcome. -/

def MS_RDONLY : Nat := 1

def MS_NOSUID : Nat := 2

def MS_NODEV : Nat := 4

def MS_NOEXEC : Nat := 8

def MS_NOATIME : Nat := 1024

def MS_NODIRATIME : Nat := 2048

def MS_RELATIME : Nat := 2097152

def MS_STRICTATIME : Nat := 16777216

structure MountInfo where
  id : Nat
  root : String
  mount_point : String
  options : Nat
  fstype : String
  source : String
deriving DecidableEq

/-- Split a character list at a separator character (the behaviour of
`str::split` / `String::splitOn` for one-character separators), by
structural recursion so the kernel can evaluate it. -/
def splitCharAux (sep : Char) : List Char → List Char → List String
  | [], cur => [String.mk cur.reverse]
  | ch :: rest, cur =>
    if ch = sep then String.mk cur.reverse :: splitCharAux sep rest []
    else splitCharAux sep rest (ch :: cur)

def splitChar (s : String) (sep : Char) : List String :=
  splitCharAux sep s.data []

/-- The option-token decoding loop of `parse_line` (unknown tokens are
logged and dropped; `rw` adds nothing). -/
def decodeOptions (opts : String) : Nat :=
  (splitChar opts ',').foldl
    (fun options opt =>
      match opt with
      | "ro" => options ||| MS_RDONLY
      | "rw" => options
      | "noexec" => options ||| MS_NOEXEC
      | "nosuid" => options ||| MS_NOSUID
      | "nodev" => options ||| MS_NODEV
      | "noatime" => options ||| MS_NOATIME
      | "nodiratime" => options ||| MS_NODIRATIME
      | "relatime" => options ||| MS_RELATIME
      | "strictatime" => options ||| MS_STRICTATIME
      | _ => options)
    0

/-- `str::split_ascii_whitespace`: maximal runs of non-whitespace. -/
def splitWsAux : List Char → List Char → List String
  | [], cur => if cur.isEmpty then [] else [String.mk cur.reverse]
  | ch :: rest, cur =>
    if ch.isWhitespace then
      if cur.isEmpty then splitWsAux rest []
      else String.mk cur.reverse :: splitWsAux rest []
    else splitWsAux rest (ch :: cur)

def splitWhitespace (s : String) : List String :=
  splitWsAux s.data []

/-- Decimal accumulation for `u64::from_str`. -/
def natOfDigits : List Char → Nat → Option Nat
  | [], acc => some acc
  | ch :: rest, acc =>
    if ch.isDigit then natOfDigits rest (acc * 10 + (ch.toNat - 48))
    else none

/-- `"36".parse::<u64>()`: optional leading `+`, at least one digit,
value below `2^64`. -/
def parseU64 (s : String) : Option Nat :=
  let l := match s.data with
           | '+' :: rest => rest
           | l => l
  match l with
  | [] => none
  | _ =>
    match natOfDigits l 0 with
    | none => none
    | some n => if n < 2 ^ 64 then some n else none

/-- Skip tokens until the `"-"` separator is at the head.  `none` encodes
the exhausted-iterator case, in which the Rust loop never terminates. -/
def skipToSep : List String → Option (List String)
  | [] => none
  | t :: rest => if t = "-" then some (t :: rest) else skipToSep rest

inductive LineResult
  | ok (mi : MountInfo)
  | err
  | diverge
deriving DecidableEq

/-- `Mounts::parse_line` (src/src/fs.rs lines 113-174).  Field errors
(missing token, unparsable id) are `err` (`Error::BadStr` in the source);
`diverge` marks the non-terminating missing-separator loop. -/
def Mounts.parse_line (line : String) : LineResult :=
  match splitWhitespace line with
  | idTok :: _parent_id :: _dev :: root :: mount_point :: opts :: rest =>
    match parseU64 idTok with
    | none => .err
    | some id =>
      match skipToSep rest with
      | none => .diverge
      | some stoks =>
        match stoks with
        | _sep :: fstype :: source :: _sopts :: _ =>
          .ok { id, root, mount_point, options := decodeOptions opts, fstype, source }
        | _ => .err
  | _ => .err

/-- `str::lines`: split on newline, no trailing empty line. -/
def strLines (s : String) : List String :=
  let parts := splitChar s (Char.ofNat 10)
  if parts.getLast? = some "" then parts.dropLast else parts

inductive MountsResult
  | ok (points : List (String × MountInfo))
  | parseError (lino : Nat) (line : String)
  | missingMount
  | diverge (lino : Nat) (line : String)
deriving DecidableEq

/-- `HashMap::insert` keyed by mount point (replace on equal key). -/
def hashInsert (key : String) (v : MountInfo) :
    List (String × MountInfo) → List (String × MountInfo)
  | [] => [(key, v)]
  | (k, w) :: rest =>
    if k = key then (key, v) :: rest else (k, w) :: hashInsert key v rest

/-- The line loop of `Mounts::parse` (src/src/fs.rs lines 183-209): any
`parse_line` failure aborts with a `ParseError` naming the zero-based line
number and the line; a divergent `parse_line` never returns at all. -/
def parseLines (lino : Nat) (acc : List (String × MountInfo)) :
    List String → MountsResult
  | [] => if acc.isEmpty then .missingMount else .ok acc
  | line :: rest =>
    match Mounts.parse_line line with
    | .diverge => .diverge lino line
    | .err => .parseError lino line
    | .ok info => parseLines (lino + 1) (hashInsert info.mount_point info acc) rest

/-- `Mounts::parse` over the file contents. -/
def Mounts.parse (contents : String) : MountsResult :=
  parseLines 0 [] (strLines contents)

/-- A well-formed mountinfo line from the in-repo unit test. -/
def mountinfoLineOk : String :=
  "22 29 0:20 / /sys rw,nosuid,nodev,noexec,relatime shared:7 - sysfs sysfs rw"

/-- The same line truncated before the `-` separator: no separator token. -/
def mountinfoLineNoSep : String := "36 35 98:0 /mnt1 /mnt2 rw,noatime master:1"

/-- C3: a mountinfo line without the `-` separator is claimed to produce a
parse error, `Mounts::parse` being total.  On any line that still has the
six fixed leading fields, the separator-scanning loop instead spins forever
(`peek()` keeps returning `None` and the loop body is a no-op), so neither
`parse_line` nor `Mounts::parse` returns: the code diverges instead of
reporting the malformed line.  Only lines with fewer than six fields (also
`-`-free) give the claimed parse error, and the well-formed test line
parses. -/
theorem c3_missing_separator_diverges :
    Mounts.parse_line mountinfoLineNoSep = .diverge ∧
    Mounts.parse (mountinfoLineNoSep ++ "\n") = .diverge 0 mountinfoLineNoSep ∧
    Mounts.parse_line "36 35" = .err ∧
    Mounts.parse "36 35\n" = .parseError 0 "36 35" ∧
    Mounts.parse_line mountinfoLineOk =
      .ok { id := 22, root := "/", mount_point := "/sys",
            options := MS_NOSUID ||| MS_NODEV ||| MS_NOEXEC ||| MS_RELATIME,
            fstype := "sysfs", source := "sysfs" } := by
  refine ⟨by decide, by decide, by decide, by decide, by decide⟩

end Sandbox
